import Mathlib

/-!
Verification development for the `reprogistry` reproduction pipeline.

Shallow embedding of the core algorithms:
- the file-level comparison engine (`scripts/compare.mjs`),
- the result-history dedup/sort pipeline (`scripts/cache-version.mjs`),
- time-bounded install and toolchain matching (`scripts/reproduce.mjs`),
- the retry-on-unpublished-dependency loop (`scripts/cache-version.mjs`),
- git URL normalization and the persistent reproduction cache.

File contents (tarballs, hashes, diffs) are modelled as strings; the
SHA-256 hash and the external `diff` tool are abstract function
parameters, since only equality of hashes matters to the engine.
JavaScript `Set`/`Map`/object-key semantics are modelled with
insertion-ordered association lists.
-/

namespace Reprogistry

/-! ### Comparison engine (scripts/compare.mjs) -/

/-- Status of a single file comparison; mirrors the `status` string field
(`'match' | 'content' | 'missing-in-source' | 'missing-in-package'`). -/
inductive FileStatus where
  | matches
  | content
  | missingInSource
  | missingInPackage
deriving DecidableEq, Repr

/-- One per-file comparison record, mirroring the `FileComparison` typedef:
optional fields are `Option` (absent keys in the JS object literal). -/
structure FileComparison where
  isMatch : Bool
  status : FileStatus
  packageHash : Option String
  sourceHash : Option String
  size : Option Nat
  diff : Option String
deriving DecidableEq, Repr

/-- Model of `ComparisonSummary`; `score` is a rational (JS number). -/
structure ComparisonSummary where
  totalFiles : Nat
  matchingFiles : Nat
  differentFiles : Nat
  missingInSource : Nat
  missingInPackage : Nat
  score : ℚ
deriving DecidableEq, Repr

/-- Model of `ComparisonResult`: per-file records (insertion-ordered, keyed by relative
path) plus the aggregate summary. -/
structure ComparisonResult where
  files : List (String × FileComparison)
  summary : ComparisonSummary
deriving DecidableEq, Repr

/-- A directory tree: relative file path to file content, as produced by
`getFiles` plus `readFile`. -/
abbrev Tree := List (String × String)

/-- Predicate `isBinary`: a null byte within the first 8 KiB marks the content binary. -/
def isBinary (content : String) : Bool :=
  (content.data.take 8192).any (fun c => c == Char.ofNat 0)

/-- First pass of `normalizeLineEndings`: replace each CRLF pair by LF
(the `/\r\n/g` replacement). -/
def replaceCRLFtoLF : List Char → List Char
  | [] => []
  | [c] => [c]
  | c :: d :: ds =>
    if c = Char.ofNat 13 ∧ d = Char.ofNat 10 then Char.ofNat 10 :: replaceCRLFtoLF ds
    else c :: replaceCRLFtoLF (d :: ds)

/-- Second pass of `normalizeLineEndings`: replace each remaining CR by LF
(the `/\r/g` replacement). -/
def replaceCRtoLF (l : List Char) : List Char :=
  l.map (fun c => if c = Char.ofNat 13 then Char.ofNat 10 else c)

/-- Function `normalizeLineEndings`: identity on binary content, otherwise CRLF → LF
then CR → LF, exactly the two sequential regex replacements of the source. -/
def normalizeLineEndings (content : String) : String :=
  if isBinary content then content
  else String.mk (replaceCRtoLF (replaceCRLFtoLF content.data))

/-- Function `hashFileNormalized`: hash of the line-ending-normalized content, for an
abstract hash function (SHA-256 in the source). -/
def hashFileNormalized (hash : String → String) (content : String) : String :=
  hash (normalizeLineEndings content)

/-- The JS `Set` built by inserting the elements of `l` in order: first
occurrence wins, insertion order preserved. -/
def jsSetUnion (l : List String) : List String :=
  l.foldl (fun acc x => if x ∈ acc then acc else acc ++ [x]) []

/-- The `allFiles` set of `compareDirectories`: union of the relative paths of both
trees, package files first (JS `new Set([...packageFiles, ...sourceFiles])`). -/
def allFilesList (pkgTree srcTree : Tree) : List String :=
  jsSetUnion (pkgTree.map Prod.fst ++ srcTree.map Prod.fst)

/-- The per-file classification of the `compareDirectories` loop body.
`diffFn` abstracts `generateDiff` (the external `diff` tool). -/
def classifyFile (hash : String → String) (diffFn : String → String → String)
    (pkgTree srcTree : Tree) (f : String) : FileComparison :=
  match pkgTree.lookup f, srcTree.lookup f with
  | some pc, some sc =>
    let ph := hashFileNormalized hash pc
    let sh := hashFileNormalized hash sc
    if ph = sh then
      ⟨true, .matches, some ph, some sh, some pc.length, none⟩
    else
      ⟨false, .content, some ph, some sh, some pc.length, some (diffFn pc sc)⟩
  | some pc, none =>
    ⟨false, .missingInSource, some (hashFileNormalized hash pc), none, some pc.length, none⟩
  | none, _ =>
    ⟨false, .missingInPackage, none, none, none, none⟩

/-- Function `compareDirectories`: classify every path in the union and aggregate the
four counters and the score (`matchingFiles / totalFiles`, `1` when empty). -/
def compareDirectories (hash : String → String) (diffFn : String → String → String)
    (pkgTree srcTree : Tree) : ComparisonResult :=
  let all := allFilesList pkgTree srcTree
  let cls := classifyFile hash diffFn pkgTree srcTree
  let matching := all.countP (fun f => decide ((cls f).status = FileStatus.matches))
  let different := all.countP (fun f => decide ((cls f).status = FileStatus.content))
  let misSrc := all.countP (fun f => decide ((cls f).status = FileStatus.missingInSource))
  let misPkg := all.countP (fun f => decide ((cls f).status = FileStatus.missingInPackage))
  let total := all.length
  { files := all.map (fun f => (f, cls f)),
    summary :=
      { totalFiles := total,
        matchingFiles := matching,
        differentFiles := different,
        missingInSource := misSrc,
        missingInPackage := misPkg,
        score := if total > 0 then (matching : ℚ) / (total : ℚ) else 1 } }

/-! ### Semantic versions (model of the `semver` library collaborator)

`semver.compare` and `semver.gte` are external library calls; they are
modelled here by parsing `major.minor.patch[-prerelease][+build]` and
comparing per semver precedence: numeric triple first, then a version
without prerelease outranks one with, then prerelease identifiers are
compared left to right (numeric identifiers numerically and below
alphanumeric ones, alphanumeric ones in ASCII order, a strict prefix
sorting lower). Build metadata is ignored. -/

/-- A prerelease identifier: numeric or alphanumeric. -/
abbrev PreId := Nat ⊕ String

/-- Structured semantic version. `pre = []` means no prerelease tag. -/
structure SemVer where
  major : Nat
  minor : Nat
  patch : Nat
  pre : List PreId
deriving DecidableEq, Repr

/-- Split a character list at every occurrence of `sep`. -/
def splitOnChar (sep : Char) : List Char → List (List Char)
  | [] => [[]]
  | c :: cs =>
    if c = sep then [] :: splitOnChar sep cs
    else
      match splitOnChar sep cs with
      | [] => [[c]]
      | t :: ts => (c :: t) :: ts

/-- Decimal value of a digit run. -/
def digitsVal (cs : List Char) : Nat :=
  cs.foldl (fun n c => n * 10 + (c.toNat - 48)) 0

/-- Numeric component parser: value of an all-digit nonempty run, else `0`
(well-formed versions never hit the fallback). -/
def natOfChars (cs : List Char) : Nat :=
  if cs ≠ [] ∧ cs.all Char.isDigit then digitsVal cs else 0

/-- A prerelease identifier is numeric when nonempty and all digits. -/
def mkPreId (cs : List Char) : PreId :=
  if cs ≠ [] ∧ cs.all Char.isDigit then .inl (digitsVal cs) else .inr (String.mk cs)

/-- Parse a version string into a `SemVer` (missing components default to 0). -/
def parseSemVer (s : String) : SemVer :=
  let noBuild := s.data.takeWhile (fun c => c ≠ '+')
  let mainCs := noBuild.takeWhile (fun c => c ≠ '-')
  let preCs := noBuild.drop (mainCs.length + 1)
  let nums := (splitOnChar '.' mainCs).map natOfChars
  { major := nums.getD 0 0,
    minor := nums.getD 1 0,
    patch := nums.getD 2 0,
    pre := if preCs = [] then [] else (splitOnChar '.' preCs).map mkPreId }

/-- Strict order on prerelease identifiers: numeric below alphanumeric,
numeric by value, alphanumeric by ASCII string order. -/
def preIdLT : PreId → PreId → Bool
  | .inl m, .inl n => decide (m < n)
  | .inl _, .inr _ => true
  | .inr _, .inl _ => false
  | .inr s, .inr t => decide (s < t)

/-- Generic list comparison: first differing element decides via `lt`,
a strict prefix sorts first. -/
def lexListLE {α : Type} [DecidableEq α] (lt : α → α → Bool) : List α → List α → Bool
  | [], _ => true
  | _ :: _, [] => false
  | a :: as, b :: bs => if a = b then lexListLE lt as bs else lt a b

/-- Prerelease-list comparison: an empty prerelease (a release version)
outranks any prerelease; otherwise identifier lists compare
lexicographically. -/
def semverPreLE : List PreId → List PreId → Bool
  | [], [] => true
  | [], _ :: _ => false
  | _ :: _, [] => true
  | a :: as, b :: bs => lexListLE preIdLT (a :: as) (b :: bs)

/-- Relation `semverCompare a b <= 0` as a Boolean relation on structured versions. -/
def semverLE (a b : SemVer) : Bool :=
  if a.major ≠ b.major then decide (a.major < b.major)
  else if a.minor ≠ b.minor then decide (a.minor < b.minor)
  else if a.patch ≠ b.patch then decide (a.patch < b.patch)
  else semverPreLE a.pre b.pre

/-- Comparison `semver.gte a b` on version strings. -/
def semverGte (a b : String) : Bool :=
  semverLE (parseSemVer b) (parseSemVer a)

/-! ### Result history: dedup and sort (scripts/cache-version.mjs)

An `EnhancedResult` is modelled by the fields the dedup/sort pipeline
inspects — `reproduceVersion`, `timestamp` (as epoch milliseconds, the
value of `Number(new Date(t))` on the stored ISO string) and the
truthiness of `diff && diff.summary` — plus an abstract `rest` standing
for all remaining JSON fields. -/

structure EnhancedResult where
  reproduceVersion : String
  timestamp : Int
  hasDiff : Bool
  rest : String
deriving DecidableEq, Repr

/-- JS `Map.set` / object property write on a string-keyed insertion-ordered
map: overwrite in place when the key exists, append otherwise. -/
def mapSet {β : Type} (m : List (String × β)) (k : String) (v : β) : List (String × β) :=
  if m.any (fun p => p.1 == k) then m.map (fun p => if p.1 == k then (k, v) else p)
  else m ++ [(k, v)]

/-- The body of the dedup loop for one already-seen key. The source
computes `prevHasDiff = prev.diff && prev.diff.summary` and
`currHasDiff = r.diff && r.diff.summary` — the raw `summary` objects (or
`undefined`), not booleans — and compares them with `===`, which is
reference identity. Entries come either from `JSON.parse` of the loaded
history or from the freshly built result, so two entries that both carry
diff data hold two distinct summary objects and `===` is false; it is
true exactly when both sides are `undefined`, i.e. both entries lack
diff data. Hence: an entry with diff data replaces one without; the
later-timestamp tie-break (`new Date(r.timestamp) >
new Date(prev.timestamp)`) applies only when both entries lack diff
data; in every other case — including both entries carrying diff data —
the earlier entry `prev` is kept. -/
def preferResult (prev curr : EnhancedResult) : EnhancedResult :=
  if curr.hasDiff && !prev.hasDiff then curr
  else if !curr.hasDiff && !prev.hasDiff then
    (if prev.timestamp < curr.timestamp then curr else prev)
  else prev

/-- One iteration of the `for (const r of existing)` dedup loop over the
`byReproduceVersion` map. -/
def dedupStep (m : List (String × EnhancedResult)) (r : EnhancedResult) :
    List (String × EnhancedResult) :=
  match m.lookup r.reproduceVersion with
  | some prev => mapSet m r.reproduceVersion (preferResult prev r)
  | none => mapSet m r.reproduceVersion r

/-- The `byReproduceVersion` map after the dedup loop. -/
def byReproduceVersion (l : List EnhancedResult) : List (String × EnhancedResult) :=
  l.foldl dedupStep []

/-- The array `[...byReproduceVersion.values()]`. -/
def dedupe (l : List EnhancedResult) : List EnhancedResult :=
  (byReproduceVersion l).map Prod.snd

/-- The sort comparator as a Boolean "sorts no later than" relation:
ascending timestamp, ties by `semverCompare` of the tool versions. -/
def entryLE (a b : EnhancedResult) : Bool :=
  if a.timestamp ≠ b.timestamp then decide (a.timestamp ≤ b.timestamp)
  else semverLE (parseSemVer a.reproduceVersion) (parseSemVer b.reproduceVersion)

/-- Insert into a list sorted by `le` (model of one step of the
comparator-driven `Array.prototype.sort`). -/
def insertSorted (le : EnhancedResult → EnhancedResult → Bool)
    (x : EnhancedResult) : List EnhancedResult → List EnhancedResult
  | [] => [x]
  | y :: ys => if le x y then x :: y :: ys else y :: insertSorted le x ys

/-- Model of `deduped.sort(comparator)`: sorting with the comparator-induced order. -/
def sortEntries (le : EnhancedResult → EnhancedResult → Bool)
    (l : List EnhancedResult) : List EnhancedResult :=
  l.foldr (insertSorted le) []

/-- What one run writes back: the loaded history (with the fresh result
already pushed) deduplicated by tool version, then sorted. -/
def persistHistory (l : List EnhancedResult) : List EnhancedResult :=
  sortEntries entryLE (dedupe l)

/-! ### Time-bounded install (npmInstall in scripts/reproduce.mjs) -/

/-- Constant `NPM_BEFORE_VERSION`: first npm release supporting `--before`. -/
def NPM_BEFORE_VERSION : String := "5.0.0"

/-- The base install command assembled before the guards. -/
def npmInstallBaseCmd : String :=
  "npm install --ignore-scripts --no-audit --no-fund --legacy-peer-deps --force"

/-- The options `npmInstall` inspects. -/
structure NpmInstallOptions where
  before : Option String
  nodeVersion : Option String
  npmVersion : Option String
deriving DecidableEq, Repr

/-- Function `npmInstall`: throws (as `Except.error`) without a `--before` timestamp,
without a known npm version, or with an npm version below 5.0.0; otherwise
runs the install command with `--before` appended, returned as `Except.ok`. -/
def npmInstall (opts : NpmInstallOptions) : Except String String :=
  match opts.before with
  | none => .error "npmInstall requires a --before timestamp for reproducible builds"
  | some b =>
    match opts.npmVersion with
    | none => .error "npmInstall requires npmVersion to verify --before support"
    | some nv =>
      if semverGte nv NPM_BEFORE_VERSION then
        .ok (npmInstallBaseCmd ++ " --before=\"" ++ b ++ "\"")
      else
        .error ("npm version " ++ nv ++ " does not support --before (requires >= "
          ++ NPM_BEFORE_VERSION ++ ")")

/-- The inner try block of `reproduce`: `packed` stays empty (no integrity)
when `npmInstall` throws; otherwise it is whatever `npm pack` reports. -/
def buildPacked (install : Except String String) (packIntegrity : Option String) :
    Option String :=
  match install with
  | .error _ => none
  | .ok _ => packIntegrity

/-- The verdict `reproduced: packed?.integrity ? mani.dist.integrity === packed.integrity : false`. -/
def reproducedVerdict (distIntegrity : String) (packed : Option String) : Bool :=
  match packed with
  | some i => distIntegrity == i
  | none => false

/-! ### Retry-on-unpublished-dependency (scripts/cache-version.mjs) -/

/-- The four dependency maps of a `package.json` manifest. -/
structure Manifest where
  dependencies : List (String × String)
  devDependencies : List (String × String)
  peerDependencies : List (String × String)
  optionalDependencies : List (String × String)
deriving DecidableEq, Repr

/-- Function `removeDep`: delete `depName` from every dependency type. -/
def removeDep (m : Manifest) (depName : String) : Manifest :=
  { dependencies := m.dependencies.filter (fun p => p.1 != depName),
    devDependencies := m.devDependencies.filter (fun p => p.1 != depName),
    peerDependencies := m.peerDependencies.filter (fun p => p.1 != depName),
    optionalDependencies := m.optionalDependencies.filter (fun p => p.1 != depName) }

/-- Outcome of one `npm install` invocation, with the ETARGET scrape made
structural: `errNoMatching pkgSpec msg` stands for a failure whose output
matches `No matching version found for <pkgSpec>`. -/
inductive InstallOutcome where
  | ok
  | errNoMatching (pkgSpec : String) (msg : String)
  | errOther (msg : String)
deriving DecidableEq, Repr

/-- Extraction `match.groups.pkgSpec.split('@')[0]`. -/
def failedDepOf (pkgSpec : String) : String :=
  (pkgSpec.splitOn "@").headD ""

/-- The retry loop of `installWithRetry`, with the loop variable
`attempt` replaced by the remaining retry budget `fuel`
(`fuel = maxRetries - attempt`; the loop retries only while
`attempt < maxRetries`): try the install; on a no-matching-version
failure with budget left, remove the named dependency and retry;
otherwise rethrow the error of this attempt. Also returns the list of
manifests attempted, in order. -/
def installGo (env : Manifest → InstallOutcome) :
    Nat → Manifest → InstallOutcome × List Manifest
  | 0, m =>
    (env m, [m])
  | fuel + 1, m =>
    match env m with
    | .ok => (.ok, [m])
    | .errNoMatching p _ =>
      let r := installGo env fuel (removeDep m (failedDepOf p))
      (r.1, m :: r.2)
    | .errOther msg => (.errOther msg, [m])

/-- Function `installWithRetry(packageDir, maxRetries = 5)`: final outcome
(`.ok` for normal return, an error constructor for a rethrow). -/
def installWithRetry (env : Manifest → InstallOutcome) (m : Manifest) : InstallOutcome :=
  (installGo env 5 m).1

/-- The manifests `installWithRetry` attempted to install, in order. -/
def installTrace (env : Manifest → InstallOutcome) (m : Manifest) : List Manifest :=
  (installGo env 5 m).2

/-- The manifest `after` differs from `before` exactly by the removal of
dependency `d`: every dependency map drops `d` and keeps all other names. -/
def removesExactly (before after : Manifest) (d : String) : Prop :=
  (∀ n, n ≠ d →
    after.dependencies.lookup n = before.dependencies.lookup n
    ∧ after.devDependencies.lookup n = before.devDependencies.lookup n
    ∧ after.peerDependencies.lookup n = before.peerDependencies.lookup n
    ∧ after.optionalDependencies.lookup n = before.optionalDependencies.lookup n)
  ∧ after.dependencies.lookup d = none
  ∧ after.devDependencies.lookup d = none
  ∧ after.peerDependencies.lookup d = none
  ∧ after.optionalDependencies.lookup d = none

/-! ### Git URL prefix rewriting -/

/-- Test `beginsWith pat s`: `s` starts with `pat`. -/
def beginsWith : List Char → List Char → Bool
  | [], _ => true
  | _ :: _, [] => false
  | p :: ps, c :: cs => p == c && beginsWith ps cs

/-- One anchored regex replacement `s.replace(/^pat/, repl)` for a literal
pattern. -/
def rewriteLead (pat repl : String) (s : String) : String :=
  if beginsWith pat.data s.data then String.mk (repl.data ++ s.data.drop pat.data.length)
  else s

/-- Modelled from the spec: `scripts/normalize-git-url.mjs` is not among the
provided sources (only its unit tests and callers are), so `normalizeGitUrl`
is modelled from §4.1 of the spec — "strip `git+` prefix, rewrite `git://` →
`https://`, rewrite SSH forms (`ssh://git@host/...`, `git@host:...`) →
`https://host/...`" — as the same chain of four anchored one-shot
replacements that `reproduce` (scripts/reproduce.mjs, lines 366-370) applies
inline, which the unit tests of the missing module also exercise. -/
def normalizeGitUrl (s : String) : String :=
  rewriteLead "git@github.com:" "https://github.com/"
    (rewriteLead "ssh://git@github.com/" "https://github.com/"
      (rewriteLead "git://" "https://"
        (rewriteLead "git+" "" s)))

/-! ### Toolchain matching (ensureNodeVersion in scripts/reproduce.mjs) -/

/-- The environment `ensureNodeVersion` interacts with: whether nvm is
installed, the outcome of `tryInstallNode` per requested version string
(`some v` = the verified installed version extracted from nvm output), and
`getNpmVersion`'s answer for a given provisioned node version (`none` =
the currently active toolchain). -/
structure ToolchainEnv where
  nvmAvailable : Bool
  tryInstall : String → Option String
  npmOf : Option String → String

/-- The value `semver.coerce(...).major`, modelled as the leading digit run of the
version string (version strings here are `[v]major[.minor[.patch]]`-shaped;
`none` when the string does not start with a digit, matching a failed
coercion). -/
def coerceMajor (s : String) : Option Nat :=
  let ds := s.data.takeWhile Char.isDigit
  if ds = [] then none else some (digitsVal ds)

/-- Function `ensureNodeVersion`: nothing without nvm; otherwise try the exact
version (leading `v` stripped), then the latest release of the same major
line, then the next major line; `none` when every attempt fails. -/
def ensureNodeVersion (env : ToolchainEnv) (nodeVersion : String) : Option String :=
  if env.nvmAvailable = false then none
  else
    let version := rewriteLead "v" "" nodeVersion
    match env.tryInstall version with
    | some i => some i
    | none =>
      match coerceMajor version with
      | none => none
      | some major =>
        match env.tryInstall (toString major) with
        | some i => some i
        | none => env.tryInstall (toString (major + 1))

/-- The ladder of provisioning attempts named by the spec (§4.2): exact
requested version, latest in the same major line, next major line. -/
def nodeAttempts (nodeVersion : String) : List String :=
  let version := rewriteLead "v" "" nodeVersion
  match coerceMajor version with
  | some major => [version, toString major, toString (major + 1)]
  | none => [version]

/-- Rendering of the spec's words for the toolchain fallback ladder
(§4.2): with the version manager available, the first successful attempt
of the ladder wins; without it, provisioning is a no-op. Used to state
that `ensureNodeVersion` refines the specified ladder. -/
def specToolchainLadder (env : ToolchainEnv) (nodeVersion : String) : Option String :=
  if env.nvmAvailable then (nodeAttempts nodeVersion).findSome? env.tryInstall
  else none

/-- The `strategy` string recorded in the result:
`npm:<npm version of the toolchain actually used>`, where a `none`
provisioning outcome means the currently active toolchain. -/
def toolchainStrategy (env : ToolchainEnv) (requested : Option String) : String :=
  "npm:" ++ env.npmOf (match requested with
    | some v => ensureNodeVersion env v
    | none => none)

/-! ### Reproduce-level persistent cache (scripts/reproduce.mjs) -/

/-- A value stored in `cache.json` under a spec: the literal `false` or a
`ReproduceResult` (payload abstracted to a string). -/
inductive CacheValue where
  | falseValue
  | result (payload : String)
deriving DecidableEq, Repr

/-- How one reproduction attempt for a spec plays out, abstracting the
network/git/build work of `reproduce`: not applicable (no repository
declared, unparseable URL, or non-GitHub host — the early `return false`
paths), success with a result, or a thrown error (the outer catch). -/
inductive AttemptOutcome where
  | notApplicable
  | success (payload : String)
  | exception (msg : String)
deriving DecidableEq, Repr

/-- Observable outcome of one `reproduce` call: the returned value, the
cache file contents after the call, and the in-memory cache object at the
end of the call. -/
structure ReproduceCallState where
  returned : CacheValue
  cacheFile : List (String × CacheValue)
  memCache : List (String × CacheValue)
deriving DecidableEq, Repr

/-- One `reproduce(spec, opts)` call with no caller-supplied cache: the
in-memory cache is loaded from the cache file; a cache hit (unless `force`)
returns the stored value untouched; otherwise a not-applicable attempt
returns `false` without recording anything, a successful attempt records
the result in memory and rewrites the cache file, and an exception records
`false` in memory only and returns `false` without rewriting the file. -/
def reproduce (cacheFile : List (String × CacheValue)) (spec : String)
    (force : Bool) (attempt : AttemptOutcome) : ReproduceCallState :=
  match (if force then none else cacheFile.lookup spec) with
  | some v => ⟨v, cacheFile, cacheFile⟩
  | none =>
    match attempt with
    | .notApplicable => ⟨.falseValue, cacheFile, cacheFile⟩
    | .success r =>
      let c := mapSet cacheFile spec (.result r)
      ⟨.result r, c, c⟩
    | .exception _ => ⟨.falseValue, cacheFile, mapSet cacheFile spec .falseValue⟩

/-! ## Theorems -/

/-! ### Comparison engine lemmas -/

theorem classifyFile_isMatch_iff (hash : String → String)
    (diffFn : String → String → String) (pkgTree srcTree : Tree) (f : String) :
    ((classifyFile hash diffFn pkgTree srcTree f).isMatch = true) ↔
      ((classifyFile hash diffFn pkgTree srcTree f).status = FileStatus.matches) := by
  cases hp : pkgTree.lookup f <;> cases hs : srcTree.lookup f <;>
    simp only [classifyFile, hp, hs] <;> try simp
  split <;> simp

theorem length_eq_countP_statuses {α : Type} (g : α → FileStatus) (l : List α) :
    l.length =
      l.countP (fun a => decide (g a = FileStatus.matches))
      + l.countP (fun a => decide (g a = FileStatus.content))
      + l.countP (fun a => decide (g a = FileStatus.missingInSource))
      + l.countP (fun a => decide (g a = FileStatus.missingInPackage)) := by
  induction l with
  | nil => rfl
  | cons hd tl ih =>
    simp only [List.countP_cons, List.length_cons, ih]
    rcases hg : g hd <;> simp [hg] <;> omega

theorem compareDirectories_summary_eq (hash : String → String)
    (diffFn : String → String → String) (pkgTree srcTree : Tree) :
    (compareDirectories hash diffFn pkgTree srcTree).summary =
      { totalFiles := (allFilesList pkgTree srcTree).length,
        matchingFiles := (allFilesList pkgTree srcTree).countP
          (fun f => decide ((classifyFile hash diffFn pkgTree srcTree f).status = FileStatus.matches)),
        differentFiles := (allFilesList pkgTree srcTree).countP
          (fun f => decide ((classifyFile hash diffFn pkgTree srcTree f).status = FileStatus.content)),
        missingInSource := (allFilesList pkgTree srcTree).countP
          (fun f => decide ((classifyFile hash diffFn pkgTree srcTree f).status = FileStatus.missingInSource)),
        missingInPackage := (allFilesList pkgTree srcTree).countP
          (fun f => decide ((classifyFile hash diffFn pkgTree srcTree f).status = FileStatus.missingInPackage)),
        score :=
          if (allFilesList pkgTree srcTree).length > 0 then
            ((allFilesList pkgTree srcTree).countP
              (fun f => decide ((classifyFile hash diffFn pkgTree srcTree f).status = FileStatus.matches)) : ℚ)
              / ((allFilesList pkgTree srcTree).length : ℚ)
          else 1 } := rfl

/-- C3: for every pair of input trees, the `compareDirectories` summary
satisfies `totalFiles = matchingFiles + differentFiles + missingInSource +
missingInPackage`, `totalFiles` being the size of the union of relative
paths of the two trees. -/
theorem compareDirectories_totalFiles_invariant (hash : String → String)
    (diffFn : String → String → String) (pkgTree srcTree : Tree) :
    (compareDirectories hash diffFn pkgTree srcTree).summary.totalFiles =
      (compareDirectories hash diffFn pkgTree srcTree).summary.matchingFiles
      + (compareDirectories hash diffFn pkgTree srcTree).summary.differentFiles
      + (compareDirectories hash diffFn pkgTree srcTree).summary.missingInSource
      + (compareDirectories hash diffFn pkgTree srcTree).summary.missingInPackage := by
  rw [compareDirectories_summary_eq]
  exact length_eq_countP_statuses
    (fun f => (classifyFile hash diffFn pkgTree srcTree f).status) (allFilesList pkgTree srcTree)

/-- C2: for every pair of input trees, `score = matchingFiles / totalFiles`
when `totalFiles > 0` and `score = 1` when `totalFiles = 0`; consequently
`score ∈ [0, 1]`, `score = 1` iff every file in the union of the two trees
is classified a match, and comparing two empty trees yields exactly `1`. -/
theorem compareDirectories_score_spec (hash : String → String)
    (diffFn : String → String → String) (pkgTree srcTree : Tree) :
    ((compareDirectories hash diffFn pkgTree srcTree).summary.totalFiles ≠ 0 →
      (compareDirectories hash diffFn pkgTree srcTree).summary.score =
        ((compareDirectories hash diffFn pkgTree srcTree).summary.matchingFiles : ℚ)
          / ((compareDirectories hash diffFn pkgTree srcTree).summary.totalFiles : ℚ))
    ∧ ((compareDirectories hash diffFn pkgTree srcTree).summary.totalFiles = 0 →
      (compareDirectories hash diffFn pkgTree srcTree).summary.score = 1)
    ∧ 0 ≤ (compareDirectories hash diffFn pkgTree srcTree).summary.score
    ∧ (compareDirectories hash diffFn pkgTree srcTree).summary.score ≤ 1
    ∧ ((compareDirectories hash diffFn pkgTree srcTree).summary.score = 1 ↔
        ∀ f ∈ allFilesList pkgTree srcTree,
          (classifyFile hash diffFn pkgTree srcTree f).isMatch = true)
    ∧ (compareDirectories hash diffFn [] []).summary.score = 1 := by
  rw [compareDirectories_summary_eq]
  dsimp only
  have hle : (allFilesList pkgTree srcTree).countP
      (fun f => decide ((classifyFile hash diffFn pkgTree srcTree f).status = FileStatus.matches))
      ≤ (allFilesList pkgTree srcTree).length := List.countP_le_length _
  refine ⟨?_, ?_, ?_, ?_, ?_, rfl⟩
  · intro ht
    simp only [if_pos (Nat.pos_of_ne_zero ht)]
  · intro ht
    simp [ht]
  · by_cases ht : (allFilesList pkgTree srcTree).length = 0
    · simp [ht]
    · simp only [if_pos (Nat.pos_of_ne_zero ht)]
      positivity
  · by_cases ht : (allFilesList pkgTree srcTree).length = 0
    · simp [ht]
    · simp only [if_pos (Nat.pos_of_ne_zero ht)]
      rw [div_le_one (by exact_mod_cast Nat.pos_of_ne_zero ht)]
      exact_mod_cast hle
  · by_cases ht : (allFilesList pkgTree srcTree).length = 0
    · have hnil : allFilesList pkgTree srcTree = [] := List.length_eq_zero.mp ht
      simp [ht, hnil]
    · simp only [if_pos (Nat.pos_of_ne_zero ht)]
      rw [div_eq_one_iff_eq (by exact_mod_cast ht), Nat.cast_inj, List.countP_eq_length]
      constructor
      · intro h f hf
        exact (classifyFile_isMatch_iff hash diffFn pkgTree srcTree f).mpr
          (of_decide_eq_true (h f hf))
      · intro h f hf
        exact decide_eq_true ((classifyFile_isMatch_iff hash diffFn pkgTree srcTree f).mp (h f hf))

/-- C2 witness: the score properties applied to a concrete one-file pair of
identical trees, discharging the side conditions there. -/
theorem compareDirectories_score_spec_witness :
    (compareDirectories (fun s => s) (fun _ _ => "") [("a", "x")] [("a", "x")]).summary.score = 1 :=
  ((compareDirectories_score_spec (fun s => s) (fun _ _ => "")
    [("a", "x")] [("a", "x")]).2.2.2.2.1).mpr (by decide)

theorem lookup_map_self {β : Type} (cls : String → β) (l : List String) (g : String) :
    (l.map (fun f => (f, cls f))).lookup g = if g ∈ l then some (cls g) else none := by
  induction l with
  | nil => simp
  | cons hd tl ih =>
    by_cases hg : hd = g
    · subst hg
      simp [List.lookup]
    · have hb : (g == hd) = false := beq_eq_false_iff_ne.mpr (Ne.symm hg)
      simp [List.lookup, hb, ih, Ne.symm hg]

/-- C6 (amended): a path present in only one tree is classified
`missing-in-source` (only in the published package) or `missing-in-package`
(only in the rebuilt source); a `missing-in-source` entry still carries the
package-side content hash and size, but a `missing-in-package` entry
carries no hash and no size — only `match: false` and the status. The last
conjunct grounds `classifyFile` as the entry stored in the `files` map. -/
theorem classifyFile_one_sided (hash : String → String)
    (diffFn : String → String → String) (pkgTree srcTree : Tree) (f : String) :
    (∀ pc, pkgTree.lookup f = some pc → srcTree.lookup f = none →
      classifyFile hash diffFn pkgTree srcTree f =
        ⟨false, .missingInSource, some (hashFileNormalized hash pc), none, some pc.length, none⟩)
    ∧ (pkgTree.lookup f = none →
      classifyFile hash diffFn pkgTree srcTree f =
        ⟨false, .missingInPackage, none, none, none, none⟩)
    ∧ (∀ fc, (compareDirectories hash diffFn pkgTree srcTree).files.lookup f = some fc ↔
        (f ∈ allFilesList pkgTree srcTree ∧ fc = classifyFile hash diffFn pkgTree srcTree f)) := by
  refine ⟨?_, ?_, ?_⟩
  · intro pc hp hs
    simp [classifyFile, hp, hs]
  · intro hp
    cases hs : srcTree.lookup f <;> simp [classifyFile, hp, hs]
  · intro fc
    have hfiles : (compareDirectories hash diffFn pkgTree srcTree).files =
        (allFilesList pkgTree srcTree).map
          (fun g => (g, classifyFile hash diffFn pkgTree srcTree g)) := rfl
    rw [hfiles, lookup_map_self]
    by_cases hf : f ∈ allFilesList pkgTree srcTree
    · simp [hf, eq_comm]
    · simp [hf]

/-- C6 witness: the one-sided classification applied to concrete trees,
discharging the lookup hypotheses there. -/
theorem classifyFile_one_sided_witness :
    classifyFile (fun s => s) (fun _ _ => "") [("b.js", "y")] [] "b.js" =
      ⟨false, .missingInSource, some (hashFileNormalized (fun s => s) "y"),
        none, some "y".length, none⟩ :=
  (classifyFile_one_sided (fun s => s) (fun _ _ => "") [("b.js", "y")] [] "b.js").1
    "y" (by decide) rfl

/-- C6 counterexample: for a file present only in the rebuilt source tree,
the stored `FileComparison` entry carries no source-side hash and no size,
contradicting the claim that the entry still carries the content hash and
size of the side on which the file exists. -/
theorem compareDirectories_missing_side_counterexample :
    ∃ fc, (compareDirectories (fun s => s) (fun _ _ => "")
        [] [("a.txt", "x")]).files.lookup "a.txt" = some fc
      ∧ fc.status = FileStatus.missingInPackage
      ∧ fc.sourceHash = none
      ∧ fc.size = none
      ∧ fc.sourceHash ≠ some (hashFileNormalized (fun s => s) "x") :=
  ⟨⟨false, .missingInPackage, none, none, none, none⟩, by decide, rfl, rfl, rfl, by decide⟩


/-! ### Git URL normalization lemmas -/

theorem rewriteLead_of_neg {pat repl s : String}
    (h : beginsWith pat.data s.data = false) : rewriteLead pat repl s = s := by
  simp [rewriteLead, h]

theorem rewriteLead_of_pos {pat repl s : String}
    (h : beginsWith pat.data s.data = true) :
    rewriteLead pat repl s = String.mk (repl.data ++ s.data.drop pat.data.length) := by
  simp [rewriteLead, h]

theorem rewriteLead_data_neg (pat repl : String) (d : List Char)
    (h : beginsWith pat.data d = false) :
    rewriteLead pat repl (String.mk d) = String.mk d := by
  simp [rewriteLead, h]

theorem rewriteLead_data_pos (pat repl : String) (d : List Char)
    (h : beginsWith pat.data d = true) :
    rewriteLead pat repl (String.mk d) = String.mk (repl.data ++ d.drop pat.data.length) := by
  simp [rewriteLead, h]

theorem beginsWith_append (p t : List Char) : beginsWith p (p ++ t) = true := by
  induction p with
  | nil => rfl
  | cons c cs ih => simp [beginsWith, ih]

theorem eq_append_of_beginsWith {p s : List Char} (h : beginsWith p s = true) :
    s = p ++ s.drop p.length := by
  induction p generalizing s with
  | nil => simp
  | cons c cs ih =>
    cases s with
    | nil => simp [beginsWith] at h
    | cons d ds =>
      simp only [beginsWith, Bool.and_eq_true, beq_iff_eq] at h
      obtain ⟨rfl, h2⟩ := h
      simpa [List.drop_succ_cons] using ih h2

theorem begins_https_false (t : List Char) :
    beginsWith "git+".data ("https://".data ++ t) = false
    ∧ beginsWith "git://".data ("https://".data ++ t) = false
    ∧ beginsWith "ssh://git@github.com/".data ("https://".data ++ t) = false
    ∧ beginsWith "git@github.com:".data ("https://".data ++ t) = false :=
  ⟨rfl, rfl, rfl, rfl⟩

theorem begins_httpsgh_false (t : List Char) :
    beginsWith "git+".data ("https://github.com/".data ++ t) = false
    ∧ beginsWith "git://".data ("https://github.com/".data ++ t) = false
    ∧ beginsWith "ssh://git@github.com/".data ("https://github.com/".data ++ t) = false
    ∧ beginsWith "git@github.com:".data ("https://github.com/".data ++ t) = false :=
  ⟨rfl, rfl, rfl, rfl⟩

theorem normalizeGitUrl_fixed {w : String}
    (h1 : beginsWith "git+".data w.data = false)
    (h2 : beginsWith "git://".data w.data = false)
    (h3 : beginsWith "ssh://git@github.com/".data w.data = false)
    (h4 : beginsWith "git@github.com:".data w.data = false) :
    normalizeGitUrl w = w := by
  unfold normalizeGitUrl
  rw [rewriteLead_of_neg h1, rewriteLead_of_neg h2, rewriteLead_of_neg h3,
    rewriteLead_of_neg h4]

/-- C7 (amended): the four forms `git@github.com:org/repo.git`,
`ssh://git@github.com/org/repo.git`, `git+https://github.com/org/repo.git`
and `https://github.com/org/repo.git` all normalize to
`https://github.com/org/repo.git`, and normalization is idempotent on every
input that does not begin with a doubled `git+git+` prefix (the one-shot
strip of the `git+` prefix makes doubled prefixes the only source of
non-idempotence). -/
theorem normalizeGitUrl_amended :
    (∀ u : String, beginsWith "git+git+".data u.data = false →
      normalizeGitUrl (normalizeGitUrl u) = normalizeGitUrl u)
    ∧ normalizeGitUrl "git@github.com:org/repo.git" = "https://github.com/org/repo.git"
    ∧ normalizeGitUrl "ssh://git@github.com/org/repo.git" = "https://github.com/org/repo.git"
    ∧ normalizeGitUrl "git+https://github.com/org/repo.git" = "https://github.com/org/repo.git"
    ∧ normalizeGitUrl "https://github.com/org/repo.git" = "https://github.com/org/repo.git" := by
  refine ⟨?_, by decide, by decide, by decide, by decide⟩
  intro u hu
  by_cases b1 : beginsWith "git+".data u.data = true
  · have hu1 : rewriteLead "git+" "" u = String.mk (u.data.drop "git+".data.length) := by
      rw [rewriteLead_of_pos b1]
      rfl
    have hb1r : beginsWith "git+".data (u.data.drop "git+".data.length) = false := by
      by_cases h : beginsWith "git+".data (u.data.drop "git+".data.length) = true
      · exfalso
        have hr := eq_append_of_beginsWith h
        have hdu := eq_append_of_beginsWith b1
        have hsplit : u.data = "git+git+".data
            ++ ((u.data.drop "git+".data.length).drop "git+".data.length) := by
          conv_lhs => rw [hdu]
          rw [show ("git+git+".data = "git+".data ++ "git+".data) from rfl,
            List.append_assoc]
          congr 1
        rw [hsplit, beginsWith_append] at hu
        simp at hu
      · simpa using h
    by_cases b2 : beginsWith "git://".data (u.data.drop "git+".data.length) = true
    · have hN : normalizeGitUrl u = String.mk ("https://".data
          ++ (u.data.drop "git+".data.length).drop "git://".data.length) := by
        unfold normalizeGitUrl
        rw [hu1, rewriteLead_data_pos _ _ _ b2,
          rewriteLead_data_neg _ _ _ (begins_https_false _).2.2.1,
          rewriteLead_data_neg _ _ _ (begins_https_false _).2.2.2]
      rw [hN]
      exact normalizeGitUrl_fixed (begins_https_false _).1 (begins_https_false _).2.1
        (begins_https_false _).2.2.1 (begins_https_false _).2.2.2
    · have b2' : beginsWith "git://".data (u.data.drop "git+".data.length) = false := by
        simpa using b2
      by_cases b3 : beginsWith "ssh://git@github.com/".data
          (u.data.drop "git+".data.length) = true
      · have hN : normalizeGitUrl u = String.mk ("https://github.com/".data
            ++ (u.data.drop "git+".data.length).drop "ssh://git@github.com/".data.length) := by
          unfold normalizeGitUrl
          rw [hu1, rewriteLead_data_neg _ _ _ b2', rewriteLead_data_pos _ _ _ b3,
            rewriteLead_data_neg _ _ _ (begins_httpsgh_false _).2.2.2]
        rw [hN]
        exact normalizeGitUrl_fixed (begins_httpsgh_false _).1 (begins_httpsgh_false _).2.1
          (begins_httpsgh_false _).2.2.1 (begins_httpsgh_false _).2.2.2
      · have b3' : beginsWith "ssh://git@github.com/".data
            (u.data.drop "git+".data.length) = false := by simpa using b3
        by_cases b4 : beginsWith "git@github.com:".data
            (u.data.drop "git+".data.length) = true
        · have hN : normalizeGitUrl u = String.mk ("https://github.com/".data
              ++ (u.data.drop "git+".data.length).drop "git@github.com:".data.length) := by
            unfold normalizeGitUrl
            rw [hu1, rewriteLead_data_neg _ _ _ b2', rewriteLead_data_neg _ _ _ b3',
              rewriteLead_data_pos _ _ _ b4]
          rw [hN]
          exact normalizeGitUrl_fixed (begins_httpsgh_false _).1 (begins_httpsgh_false _).2.1
            (begins_httpsgh_false _).2.2.1 (begins_httpsgh_false _).2.2.2
        · have b4' : beginsWith "git@github.com:".data
              (u.data.drop "git+".data.length) = false := by simpa using b4
          have hN : normalizeGitUrl u = String.mk (u.data.drop "git+".data.length) := by
            unfold normalizeGitUrl
            rw [hu1, rewriteLead_data_neg _ _ _ b2', rewriteLead_data_neg _ _ _ b3',
              rewriteLead_data_neg _ _ _ b4']
          rw [hN]
          exact normalizeGitUrl_fixed hb1r b2' b3' b4'
  · have b1' : beginsWith "git+".data u.data = false := by simpa using b1
    have hu1 : rewriteLead "git+" "" u = u := rewriteLead_of_neg b1'
    by_cases b2 : beginsWith "git://".data u.data = true
    · have hN : normalizeGitUrl u = String.mk ("https://".data
          ++ u.data.drop "git://".data.length) := by
        unfold normalizeGitUrl
        rw [hu1, rewriteLead_of_pos b2,
          rewriteLead_data_neg _ _ _ (begins_https_false _).2.2.1,
          rewriteLead_data_neg _ _ _ (begins_https_false _).2.2.2]
      rw [hN]
      exact normalizeGitUrl_fixed (begins_https_false _).1 (begins_https_false _).2.1
        (begins_https_false _).2.2.1 (begins_https_false _).2.2.2
    · have b2' : beginsWith "git://".data u.data = false := by simpa using b2
      by_cases b3 : beginsWith "ssh://git@github.com/".data u.data = true
      · have hN : normalizeGitUrl u = String.mk ("https://github.com/".data
            ++ u.data.drop "ssh://git@github.com/".data.length) := by
          unfold normalizeGitUrl
          rw [hu1, rewriteLead_of_neg b2', rewriteLead_of_pos b3,
            rewriteLead_data_neg _ _ _ (begins_httpsgh_false _).2.2.2]
        rw [hN]
        exact normalizeGitUrl_fixed (begins_httpsgh_false _).1 (begins_httpsgh_false _).2.1
          (begins_httpsgh_false _).2.2.1 (begins_httpsgh_false _).2.2.2
      · have b3' : beginsWith "ssh://git@github.com/".data u.data = false := by
          simpa using b3
        by_cases b4 : beginsWith "git@github.com:".data u.data = true
        · have hN : normalizeGitUrl u = String.mk ("https://github.com/".data
              ++ u.data.drop "git@github.com:".data.length) := by
            unfold normalizeGitUrl
            rw [hu1, rewriteLead_of_neg b2', rewriteLead_of_neg b3',
              rewriteLead_of_pos b4]
          rw [hN]
          exact normalizeGitUrl_fixed (begins_httpsgh_false _).1 (begins_httpsgh_false _).2.1
            (begins_httpsgh_false _).2.2.1 (begins_httpsgh_false _).2.2.2
        · have b4' : beginsWith "git@github.com:".data u.data = false := by simpa using b4
          have hN : normalizeGitUrl u = u := normalizeGitUrl_fixed b1' b2' b3' b4'
          rw [hN]
          exact normalizeGitUrl_fixed b1' b2' b3' b4'

/-- C7 witness: idempotence applied at the combined-prefix test input,
discharging the no-doubled-prefix hypothesis there. -/
theorem normalizeGitUrl_amended_witness :
    normalizeGitUrl (normalizeGitUrl "git+ssh://git@github.com/org/repo.git") =
      normalizeGitUrl "git+ssh://git@github.com/org/repo.git" :=
  normalizeGitUrl_amended.1 "git+ssh://git@github.com/org/repo.git" (by decide)

/-- C7 counterexample: normalization is not idempotent for every input
string — on `git+git+https://github.com/org/repo.git` the first pass strips
one `git+` prefix and the second pass strips another, so
`normalize(normalize(u))` differs from `normalize(u)`. -/
theorem normalizeGitUrl_not_idempotent :
    normalizeGitUrl (normalizeGitUrl "git+git+https://github.com/org/repo.git") ≠
      normalizeGitUrl "git+git+https://github.com/org/repo.git" := by decide

/-! ### Order lemmas for the history comparator -/

theorem preIdLT_total {a b : PreId} (h : a ≠ b) :
    preIdLT a b = true ∨ preIdLT b a = true := by
  cases a with
  | inl m =>
    cases b with
    | inl n =>
      have hmn : m ≠ n := fun he => h (by rw [he])
      rcases Nat.lt_or_gt_of_ne hmn with h' | h'
      · exact Or.inl (by simp [preIdLT, h'])
      · exact Or.inr (by simp [preIdLT, h'])
    | inr t => exact Or.inl rfl
  | inr s =>
    cases b with
    | inl n => exact Or.inr rfl
    | inr t =>
      have hst : s ≠ t := fun he => h (by rw [he])
      rcases lt_or_gt_of_ne hst with h' | h'
      · exact Or.inl (by simp [preIdLT, h'])
      · exact Or.inr (by simp [preIdLT, h'])

theorem preIdLT_asymm {a b : PreId} (h : preIdLT a b = true) : preIdLT b a = false := by
  cases a <;> cases b <;> simp_all [preIdLT]
  · omega
  · exact le_of_lt h

theorem preIdLT_trans {a b c : PreId} (h1 : preIdLT a b = true)
    (h2 : preIdLT b c = true) : preIdLT a c = true := by
  cases a <;> cases b <;> cases c <;> simp_all [preIdLT]
  · omega
  · exact lt_trans h1 h2

theorem lexListLE_total {α : Type} [DecidableEq α] (lt : α → α → Bool)
    (htot : ∀ a b : α, a ≠ b → lt a b = true ∨ lt b a = true) :
    ∀ l1 l2 : List α, lexListLE lt l1 l2 = true ∨ lexListLE lt l2 l1 = true := by
  intro l1
  induction l1 with
  | nil => intro l2; exact Or.inl rfl
  | cons a as ih =>
    intro l2
    cases l2 with
    | nil => exact Or.inr rfl
    | cons b bs =>
      by_cases hab : a = b
      · subst hab
        rcases ih bs with h | h
        · exact Or.inl (by simp [lexListLE, h])
        · exact Or.inr (by simp [lexListLE, h])
      · rcases htot a b hab with h | h
        · exact Or.inl (by simp [lexListLE, hab, h])
        · exact Or.inr (by simp [lexListLE, Ne.symm hab, h])

theorem lexListLE_trans {α : Type} [DecidableEq α] (lt : α → α → Bool)
    (hasym : ∀ a b : α, lt a b = true → lt b a = false)
    (htrans : ∀ a b c : α, lt a b = true → lt b c = true → lt a c = true) :
    ∀ l1 l2 l3 : List α, lexListLE lt l1 l2 = true → lexListLE lt l2 l3 = true →
      lexListLE lt l1 l3 = true := by
  intro l1
  induction l1 with
  | nil => intro l2 l3 _ _; rfl
  | cons a as ih =>
    intro l2 l3 h1 h2
    cases l2 with
    | nil => simp [lexListLE] at h1
    | cons b bs =>
      cases l3 with
      | nil => simp [lexListLE] at h2
      | cons c cs =>
        by_cases hab : a = b
        · subst hab
          by_cases hbc : a = c
          · subst hbc
            simp only [lexListLE, if_pos rfl] at h1 h2 ⊢
            exact ih bs cs h1 h2
          · simp only [lexListLE, if_pos rfl] at h1
            simpa [lexListLE, hbc] using h2
        · by_cases hbc : b = c
          · subst hbc
            simpa [lexListLE, hab] using h1
          · simp only [lexListLE, if_neg hab] at h1
            simp only [lexListLE, if_neg hbc] at h2
            by_cases hac : a = c
            · subst hac
              have := hasym a b h1
              rw [this] at h2
              exact absurd h2 (by simp)
            · simpa [lexListLE, hac] using htrans a b c h1 h2

theorem semverPreLE_total (p q : List PreId) :
    semverPreLE p q = true ∨ semverPreLE q p = true := by
  cases p with
  | nil =>
    cases q with
    | nil => exact Or.inl rfl
    | cons b bs => exact Or.inr rfl
  | cons a as =>
    cases q with
    | nil => exact Or.inl rfl
    | cons b bs =>
      simpa [semverPreLE] using
        lexListLE_total preIdLT (fun x y h => preIdLT_total h) (a :: as) (b :: bs)

theorem semverPreLE_trans {p q r : List PreId} (h1 : semverPreLE p q = true)
    (h2 : semverPreLE q r = true) : semverPreLE p r = true := by
  cases p with
  | nil =>
    cases q with
    | nil => exact h2
    | cons b bs => simp [semverPreLE] at h1
  | cons a as =>
    cases r with
    | nil => cases q <;> rfl
    | cons c cs =>
      cases q with
      | nil => simp [semverPreLE] at h2
      | cons b bs =>
        simp only [semverPreLE] at h1 h2 ⊢
        exact lexListLE_trans preIdLT (fun x y h => preIdLT_asymm h)
          (fun x y z hx hy => preIdLT_trans hx hy) _ _ _ h1 h2

theorem semverLE_iff (a b : SemVer) : semverLE a b = true ↔
    (a.major < b.major ∨ (a.major = b.major ∧ (a.minor < b.minor ∨ (a.minor = b.minor ∧
      (a.patch < b.patch ∨ (a.patch = b.patch ∧ semverPreLE a.pre b.pre = true)))))) := by
  unfold semverLE
  by_cases h1 : a.major = b.major
  · by_cases h2 : a.minor = b.minor
    · by_cases h3 : a.patch = b.patch
      · simp [h1, h2, h3]
      · simp [h1, h2, h3]
    · simp [h1, h2]
  · simp [h1]

theorem semverLE_total (a b : SemVer) : semverLE a b = true ∨ semverLE b a = true := by
  rw [semverLE_iff, semverLE_iff]
  rcases Nat.lt_trichotomy a.major b.major with h | h | h
  · exact Or.inl (Or.inl h)
  · rcases Nat.lt_trichotomy a.minor b.minor with h' | h' | h'
    · exact Or.inl (Or.inr ⟨h, Or.inl h'⟩)
    · rcases Nat.lt_trichotomy a.patch b.patch with h'' | h'' | h''
      · exact Or.inl (Or.inr ⟨h, Or.inr ⟨h', Or.inl h''⟩⟩)
      · rcases semverPreLE_total a.pre b.pre with hp | hp
        · exact Or.inl (Or.inr ⟨h, Or.inr ⟨h', Or.inr ⟨h'', hp⟩⟩⟩)
        · exact Or.inr (Or.inr ⟨h.symm, Or.inr ⟨h'.symm, Or.inr ⟨h''.symm, hp⟩⟩⟩)
      · exact Or.inr (Or.inr ⟨h.symm, Or.inr ⟨h'.symm, Or.inl h''⟩⟩)
    · exact Or.inr (Or.inr ⟨h.symm, Or.inl h'⟩)
  · exact Or.inr (Or.inl h)

theorem semverLE_trans {a b c : SemVer} (h1 : semverLE a b = true)
    (h2 : semverLE b c = true) : semverLE a c = true := by
  rw [semverLE_iff] at h1 h2 ⊢
  rcases h1 with h1 | ⟨e1, h1⟩
  · rcases h2 with h2 | ⟨e2, h2⟩
    · exact Or.inl (by omega)
    · exact Or.inl (by omega)
  · rcases h2 with h2 | ⟨e2, h2⟩
    · exact Or.inl (by omega)
    · refine Or.inr ⟨by omega, ?_⟩
      rcases h1 with h1 | ⟨f1, h1⟩
      · rcases h2 with h2 | ⟨f2, h2⟩
        · exact Or.inl (by omega)
        · exact Or.inl (by omega)
      · rcases h2 with h2 | ⟨f2, h2⟩
        · exact Or.inl (by omega)
        · refine Or.inr ⟨by omega, ?_⟩
          rcases h1 with h1 | ⟨g1, h1⟩
          · rcases h2 with h2 | ⟨g2, h2⟩
            · exact Or.inl (by omega)
            · exact Or.inl (by omega)
          · rcases h2 with h2 | ⟨g2, h2⟩
            · exact Or.inl (by omega)
            · exact Or.inr ⟨by omega, semverPreLE_trans h1 h2⟩

theorem entryLE_total (a b : EnhancedResult) : entryLE a b = true ∨ entryLE b a = true := by
  unfold entryLE
  by_cases h : a.timestamp = b.timestamp
  · rw [if_neg (by omega), if_neg (by omega)]
    exact semverLE_total _ _
  · rcases lt_or_gt_of_ne h with h' | h'
    · exact Or.inl (by rw [if_pos h]; exact decide_eq_true (le_of_lt h'))
    · exact Or.inr (by rw [if_pos (Ne.symm h)]; exact decide_eq_true (le_of_lt h'))

theorem entryLE_trans {a b c : EnhancedResult} (h1 : entryLE a b = true)
    (h2 : entryLE b c = true) : entryLE a c = true := by
  unfold entryLE at h1 h2 ⊢
  by_cases e1 : a.timestamp = b.timestamp
  · by_cases e2 : b.timestamp = c.timestamp
    · rw [if_neg (by omega)] at h1
      rw [if_neg (by omega)] at h2
      rw [if_neg (by omega)]
      exact semverLE_trans h1 h2
    · rw [if_pos e2] at h2
      have h2' := of_decide_eq_true h2
      rw [if_pos (show a.timestamp ≠ c.timestamp by omega)]
      exact decide_eq_true (by omega)
  · by_cases e2 : b.timestamp = c.timestamp
    · rw [if_pos e1] at h1
      have h1' := of_decide_eq_true h1
      rw [if_pos (show a.timestamp ≠ c.timestamp by omega)]
      exact decide_eq_true (by omega)
    · rw [if_pos e1] at h1
      rw [if_pos e2] at h2
      have h1' := of_decide_eq_true h1
      have h2' := of_decide_eq_true h2
      rw [if_pos (show a.timestamp ≠ c.timestamp by omega)]
      exact decide_eq_true (by omega)

/-! ### Sorting lemmas -/

theorem mem_insertSorted (le : EnhancedResult → EnhancedResult → Bool)
    (x : EnhancedResult) (l : List EnhancedResult) (a : EnhancedResult) :
    a ∈ insertSorted le x l ↔ a = x ∨ a ∈ l := by
  induction l with
  | nil => simp [insertSorted]
  | cons y ys ih =>
    simp only [insertSorted]
    split
    · simp [List.mem_cons]
    · simp only [List.mem_cons, ih]
      tauto

theorem pairwise_insertSorted (le : EnhancedResult → EnhancedResult → Bool)
    (htot : ∀ a b, le a b = true ∨ le b a = true)
    (htrans : ∀ a b c, le a b = true → le b c = true → le a c = true)
    (x : EnhancedResult) (l : List EnhancedResult)
    (hl : l.Pairwise (fun a b => le a b = true)) :
    (insertSorted le x l).Pairwise (fun a b => le a b = true) := by
  induction l with
  | nil => simp [insertSorted]
  | cons y ys ih =>
    rcases List.pairwise_cons.mp hl with ⟨hy, hys⟩
    simp only [insertSorted]
    split
    · rename_i hxy
      refine List.pairwise_cons.mpr ⟨?_, hl⟩
      intro z hz
      rcases List.mem_cons.mp hz with rfl | hz'
      · exact hxy
      · exact htrans x y z hxy (hy z hz')
    · rename_i hxy
      have hyx : le y x = true := (htot x y).resolve_left (by simpa using hxy)
      refine List.pairwise_cons.mpr ⟨?_, ih hys⟩
      intro z hz
      rcases (mem_insertSorted le x ys z).mp hz with rfl | hz'
      · exact hyx
      · exact hy z hz'

theorem pairwise_sortEntries (le : EnhancedResult → EnhancedResult → Bool)
    (htot : ∀ a b, le a b = true ∨ le b a = true)
    (htrans : ∀ a b c, le a b = true → le b c = true → le a c = true)
    (l : List EnhancedResult) :
    (sortEntries le l).Pairwise (fun a b => le a b = true) := by
  induction l with
  | nil => simp [sortEntries]
  | cons x xs ih => exact pairwise_insertSorted le htot htrans x _ ih

theorem insertSorted_perm (le : EnhancedResult → EnhancedResult → Bool)
    (x : EnhancedResult) (l : List EnhancedResult) :
    (insertSorted le x l).Perm (x :: l) := by
  induction l with
  | nil => simp [insertSorted]
  | cons y ys ih =>
    simp only [insertSorted]
    split
    · exact List.Perm.refl _
    · exact (ih.cons y).trans (List.Perm.swap x y ys)

theorem sortEntries_perm (le : EnhancedResult → EnhancedResult → Bool)
    (l : List EnhancedResult) : (sortEntries le l).Perm l := by
  induction l with
  | nil => exact List.Perm.refl _
  | cons x xs ih => exact (insertSorted_perm le x _).trans (ih.cons x)

/-- C5: the persisted result history is always sorted ascending by
timestamp, ties broken by the semantic-version order on the reproducer
tool version; the concrete-run conjuncts show a pair with equal timestamps
sorted `9.0.0` before `10.0.0` per semver, while ASCII-lexicographic string
order would put `10.0.0` first. -/
theorem persistHistory_sorted (l : List EnhancedResult) :
    (persistHistory l).Pairwise (fun a b => entryLE a b = true)
    ∧ persistHistory
        [⟨"10.0.0", 0, false, "r10"⟩, ⟨"9.0.0", 0, false, "r9"⟩] =
      [⟨"9.0.0", 0, false, "r9"⟩, ⟨"10.0.0", 0, false, "r10"⟩]
    ∧ lexListLE (fun a b : Char => decide (a < b)) "10.0.0".data "9.0.0".data = true
    ∧ lexListLE (fun a b : Char => decide (a < b)) "9.0.0".data "10.0.0".data = false := by
  refine ⟨?_, by decide, by decide, by decide⟩
  exact pairwise_sortEntries entryLE entryLE_total
    (fun a b c h1 h2 => entryLE_trans h1 h2) (dedupe l)

/-! ### Dedup-map lemmas -/

theorem lookup_append_single {β : Type} (m : List (String × β)) (k : String) (v : β)
    (h : m.any (fun p => p.1 == k) = false) : (m ++ [(k, v)]).lookup k = some v := by
  induction m with
  | nil => simp [List.lookup]
  | cons p ps ih =>
    simp only [List.any_cons, Bool.or_eq_false_iff] at h
    have hk : (k == p.1) = false :=
      beq_eq_false_iff_ne.mpr (Ne.symm (by simpa using h.1))
    simp [List.lookup, hk, ih h.2]

theorem lookup_map_replace {β : Type} (m : List (String × β)) (k : String) (v : β)
    (h : m.any (fun p => p.1 == k) = true) :
    (m.map (fun p => if p.1 == k then (k, v) else p)).lookup k = some v := by
  induction m with
  | nil => simp at h
  | cons p ps ih =>
    by_cases hp : (p.1 == k) = true
    · simp only [List.map_cons]
      rw [if_pos hp]
      simp [List.lookup]
    · have hp' : (p.1 == k) = false := by simpa using hp
      have hk : (k == p.1) = false :=
        beq_eq_false_iff_ne.mpr (Ne.symm (by simpa using hp'))
      simp only [List.any_cons, hp', Bool.false_or] at h
      simp only [List.map_cons]
      rw [if_neg hp]
      simp only [List.lookup, hk]
      exact ih h

theorem lookup_mapSet_self {β : Type} (m : List (String × β)) (k : String) (v : β) :
    (mapSet m k v).lookup k = some v := by
  unfold mapSet
  split
  · exact lookup_map_replace m k v (by assumption)
  · rename_i h
    exact lookup_append_single m k v (Bool.eq_false_iff.mpr h)

theorem mapSet_mapSet {β : Type} (m : List (String × β)) (k : String) (v w : β) :
    mapSet (mapSet m k v) k w = mapSet m k w := by
  unfold mapSet
  by_cases h : m.any (fun p => p.1 == k) = true
  · rw [if_pos h]
    have hany : (m.map (fun p => if p.1 == k then (k, v) else p)).any
        (fun p => p.1 == k) = true := by
      rw [List.any_map]
      rcases List.any_eq_true.mp h with ⟨x, hx, hxk⟩
      refine List.any_eq_true.mpr ⟨x, hx, ?_⟩
      simp only [Function.comp]
      rw [if_pos hxk]
      exact beq_self_eq_true k
    rw [if_pos hany, if_pos h, List.map_map]
    apply List.map_congr_left
    intro p _
    by_cases hp : (p.1 == k) = true <;> simp [Function.comp, hp]
  · have h' : m.any (fun p => p.1 == k) = false := Bool.eq_false_iff.mpr h
    rw [if_neg h]
    have hany : (m ++ [(k, v)]).any (fun p => p.1 == k) = true := by
      simp [List.any_append]
    rw [if_pos hany, if_neg h, List.map_append]
    congr 1
    · conv_rhs => rw [← List.map_id m]
      apply List.map_congr_left
      intro p hp
      have : (p.1 == k) = false := by
        rcases List.any_eq_false.mp h' with hall
        simpa using hall p hp
      simp [this]
    · simp

theorem lookup_mem {β : Type} (m : List (String × β)) (k : String) (v : β)
    (h : m.lookup k = some v) : (k, v) ∈ m := by
  induction m with
  | nil => simp [List.lookup] at h
  | cons p ps ih =>
    by_cases hp : (k == p.1) = true
    · simp only [List.lookup, hp] at h
      have h1 : k = p.1 := beq_iff_eq.mp hp
      have h2 : v = p.2 := (Option.some.inj h).symm
      have hkv : (k, v) = p := by rw [h1, h2]
      rw [hkv]
      exact List.mem_cons_self p ps
    · have hp' : (k == p.1) = false := by simpa using hp
      simp only [List.lookup, hp'] at h
      exact List.mem_cons_of_mem _ (ih h)

theorem dedupStep_eq_of_lookup_none {m : List (String × EnhancedResult)}
    {r : EnhancedResult} (hm : m.lookup r.reproduceVersion = none) :
    dedupStep m r = mapSet m r.reproduceVersion r := by
  unfold dedupStep
  rw [hm]

theorem dedupStep_eq_of_lookup_some {m : List (String × EnhancedResult)}
    {r prev : EnhancedResult} (hm : m.lookup r.reproduceVersion = some prev) :
    dedupStep m r = mapSet m r.reproduceVersion (preferResult prev r) := by
  unfold dedupStep
  rw [hm]

theorem preferResult_self (e : EnhancedResult) : preferResult e e = e := by
  cases he : e.hasDiff <;> simp [preferResult, he]

theorem preferResult_cases (p c : EnhancedResult) :
    preferResult p c = p ∨ preferResult p c = c := by
  unfold preferResult
  split
  · exact Or.inr rfl
  · split
    · split
      · exact Or.inr rfl
      · exact Or.inl rfl
    · exact Or.inl rfl

theorem preferResult_absorb (p e : EnhancedResult) :
    preferResult (preferResult p e) e = preferResult p e := by
  rcases preferResult_cases p e with h | h
  · rw [h]
    exact h
  · rw [h]
    exact preferResult_self e

theorem dedupStep_idem (m : List (String × EnhancedResult)) (e : EnhancedResult) :
    dedupStep (dedupStep m e) e = dedupStep m e := by
  cases hm : m.lookup e.reproduceVersion with
  | none =>
    rw [dedupStep_eq_of_lookup_none hm,
      dedupStep_eq_of_lookup_some (lookup_mapSet_self m e.reproduceVersion e),
      preferResult_self, mapSet_mapSet]
  | some prev =>
    rw [dedupStep_eq_of_lookup_some hm,
      dedupStep_eq_of_lookup_some
        (lookup_mapSet_self m e.reproduceVersion (preferResult prev e)),
      preferResult_absorb, mapSet_mapSet]

theorem dedupe_append_twice (l : List EnhancedResult) (e : EnhancedResult) :
    dedupe (l ++ [e, e]) = dedupe (l ++ [e]) := by
  unfold dedupe byReproduceVersion
  rw [List.foldl_append, List.foldl_append]
  simp only [List.foldl_cons, List.foldl_nil]
  rw [dedupStep_idem]

theorem keys_mapSet {β : Type} (m : List (String × β)) (k : String) (v : β) :
    (mapSet m k v).map Prod.fst =
      if m.any (fun p => p.1 == k) then m.map Prod.fst else m.map Prod.fst ++ [k] := by
  unfold mapSet
  split
  · rename_i h
    rw [List.map_map]
    apply List.map_congr_left
    intro p _
    by_cases hp : (p.1 == k) = true
    · simp only [Function.comp]
      rw [if_pos hp]
      exact (beq_iff_eq.mp hp).symm
    · simp only [Function.comp]
      rw [if_neg hp]
  · simp

theorem keys_dedupStep (m : List (String × EnhancedResult)) (r : EnhancedResult) :
    (dedupStep m r).map Prod.fst =
      if m.any (fun p => p.1 == r.reproduceVersion) then m.map Prod.fst
      else m.map Prod.fst ++ [r.reproduceVersion] := by
  cases hm : m.lookup r.reproduceVersion with
  | none => rw [dedupStep_eq_of_lookup_none hm, keys_mapSet]
  | some prev => rw [dedupStep_eq_of_lookup_some hm, keys_mapSet]

theorem nodup_keys_dedupStep (m : List (String × EnhancedResult)) (r : EnhancedResult)
    (h : (m.map Prod.fst).Nodup) : ((dedupStep m r).map Prod.fst).Nodup := by
  rw [keys_dedupStep]
  split
  · exact h
  · rename_i hany
    have hany' : m.any (fun p => p.1 == r.reproduceVersion) = false :=
      Bool.eq_false_iff.mpr hany
    rw [List.nodup_append]
    refine ⟨h, List.nodup_singleton _, ?_⟩
    intro k hk hk'
    simp only [List.mem_singleton] at hk'
    subst hk'
    rcases List.mem_map.mp hk with ⟨p, hp, hpk⟩
    have := List.any_eq_false.mp hany' p hp
    simp [hpk] at this

theorem vals_mapSet (m : List (String × EnhancedResult)) (k : String) (v : EnhancedResult)
    (h : ∀ p ∈ m, p.2.reproduceVersion = p.1) (hv : v.reproduceVersion = k) :
    ∀ p ∈ mapSet m k v, p.2.reproduceVersion = p.1 := by
  unfold mapSet
  split
  · intro p hp
    rcases List.mem_map.mp hp with ⟨q, hq, hqp⟩
    by_cases hqk : (q.1 == k) = true
    · rw [if_pos hqk] at hqp
      rw [← hqp]
      exact hv
    · rw [if_neg hqk] at hqp
      rw [← hqp]
      exact h q hq
  · intro p hp
    rcases List.mem_append.mp hp with h1 | h1
    · exact h p h1
    · simp only [List.mem_singleton] at h1
      rw [h1]
      exact hv

theorem vals_dedupStep (m : List (String × EnhancedResult)) (r : EnhancedResult)
    (h : ∀ p ∈ m, p.2.reproduceVersion = p.1) :
    ∀ p ∈ dedupStep m r, p.2.reproduceVersion = p.1 := by
  cases hm : m.lookup r.reproduceVersion with
  | none =>
    rw [dedupStep_eq_of_lookup_none hm]
    exact vals_mapSet m _ r h rfl
  | some prev =>
    rw [dedupStep_eq_of_lookup_some hm]
    have hprev : prev.reproduceVersion = r.reproduceVersion :=
      h (r.reproduceVersion, prev) (lookup_mem m _ prev hm)
    rcases preferResult_cases prev r with hp | hp
    · exact vals_mapSet m _ _ h (by rw [hp]; exact hprev)
    · exact vals_mapSet m _ _ h (by rw [hp])

theorem countP_vals_of_nodup (m : List (String × EnhancedResult)) (v : String)
    (hkeys : ∀ p ∈ m, p.2.reproduceVersion = p.1)
    (hdup : (m.map Prod.fst).Nodup) :
    (m.map Prod.snd).countP (fun r => r.reproduceVersion == v) =
      if v ∈ m.map Prod.fst then 1 else 0 := by
  induction m with
  | nil => simp
  | cons p ps ih =>
    have hp := hkeys p (List.mem_cons_self p ps)
    simp only [List.map_cons, List.nodup_cons] at hdup
    have ihv := ih (fun q hq => hkeys q (List.mem_cons_of_mem p hq)) hdup.2
    simp only [List.map_cons, List.countP_cons, ihv, List.mem_cons]
    by_cases hv : p.1 = v
    · have hnotin : v ∉ ps.map Prod.fst := hv ▸ hdup.1
      have hbeq : (p.2.reproduceVersion == v) = true := beq_iff_eq.mpr (hp.trans hv)
      simp [hnotin, hbeq, hv]
    · have hbeq : (p.2.reproduceVersion == v) = false :=
        beq_eq_false_iff_ne.mpr (by rw [hp]; exact hv)
      have hvp : ¬ (v = p.1) := fun he => hv he.symm
      simp only [hbeq, Bool.false_eq_true, if_false, Nat.add_zero]
      rw [if_congr (or_iff_right hvp) rfl rfl]

theorem keys_foldl_mem (l : List EnhancedResult) (m : List (String × EnhancedResult))
    (k : String) :
    k ∈ (l.foldl dedupStep m).map Prod.fst ↔
      (k ∈ m.map Prod.fst ∨ ∃ r ∈ l, r.reproduceVersion = k) := by
  induction l generalizing m with
  | nil => simp
  | cons e es ih =>
    rw [List.foldl_cons, ih]
    have hstep : k ∈ (dedupStep m e).map Prod.fst ↔
        (k ∈ m.map Prod.fst ∨ k = e.reproduceVersion) := by
      rw [keys_dedupStep]
      split
      · rename_i hany
        constructor
        · exact Or.inl
        · rintro (h | hk)
          · exact h
          · subst hk
            rcases List.any_eq_true.mp hany with ⟨p, hp, hpk⟩
            have hpk' : p.1 = e.reproduceVersion := beq_iff_eq.mp hpk
            exact hpk' ▸ List.mem_map_of_mem Prod.fst hp
      · simp [List.mem_append, eq_comm]
    rw [hstep]
    simp only [List.mem_cons]
    constructor
    · rintro ((h | rfl) | ⟨r, hr, hrk⟩)
      · exact Or.inl h
      · exact Or.inr ⟨e, Or.inl rfl, rfl⟩
      · exact Or.inr ⟨r, Or.inr hr, hrk⟩
    · rintro (h | ⟨r, hr | hr, hrk⟩)
      · exact Or.inl (Or.inl h)
      · exact Or.inl (Or.inr (by rw [hr] at hrk; exact hrk.symm))
      · exact Or.inr ⟨r, hr, hrk⟩

theorem foldl_dedupStep_invariant (l : List EnhancedResult)
    (m : List (String × EnhancedResult))
    (hkeys : ∀ p ∈ m, p.2.reproduceVersion = p.1)
    (hdup : (m.map Prod.fst).Nodup) :
    (∀ p ∈ l.foldl dedupStep m, p.2.reproduceVersion = p.1)
    ∧ ((l.foldl dedupStep m).map Prod.fst).Nodup := by
  induction l generalizing m with
  | nil => exact ⟨hkeys, hdup⟩
  | cons e es ih =>
    rw [List.foldl_cons]
    exact ih (dedupStep m e) (vals_dedupStep m e hkeys) (nodup_keys_dedupStep m e hdup)

/-- C4 (code bug): with two entries for the same reproducer tool version
that both carry comparison data, the dedup loop keeps the earlier entry
regardless of timestamps — `currHasDiff === prevHasDiff` compares the two
distinct `summary` objects by reference, so it is false and neither
replacement branch fires — contradicting the claim and the source's own
comment (`// Both have or both lack diff - keep latest`), which require
the entry with the most recent timestamp to be kept. Evaluated at a
concrete failing input: the older entry (timestamp 5) survives against
the newer one (timestamp 9). The last conjunct shows the tie-break does
work as documented when both entries lack comparison data, isolating the
bug to the both-have case. -/
theorem persistHistory_keeps_older_on_both_diff :
    persistHistory
        [⟨"0.1.0-local", 5, true, "old"⟩, ⟨"0.1.0-local", 9, true, "new"⟩] =
      [⟨"0.1.0-local", 5, true, "old"⟩]
    ∧ (5 : Int) < 9
    ∧ persistHistory
        [⟨"0.1.0-local", 5, false, "old"⟩, ⟨"0.1.0-local", 9, false, "new"⟩] =
      [⟨"0.1.0-local", 9, false, "new"⟩] :=
  ⟨by decide, by decide, by decide⟩

/-! ### Time-bounded install (C1) -/

/-- C1: `npmInstall` never proceeds with an unconstrained install — a
successful run requires a `--before` timestamp and a known npm version of
at least 5.0.0, and the executed command carries `--before` — and when the
npm version lacks `--before` support (or no timestamp / npm version is
known) it throws, the build produces no packed artifact, and the recorded
`reproduced` verdict is `false`, not a success downgraded to a warning. -/
theorem npmInstall_requires_timebound (opts : NpmInstallOptions) :
    (∀ cmd, npmInstall opts = Except.ok cmd →
      ∃ b nv, opts.before = some b ∧ opts.npmVersion = some nv
        ∧ semverGte nv NPM_BEFORE_VERSION = true
        ∧ cmd = npmInstallBaseCmd ++ " --before=\"" ++ b ++ "\"")
    ∧ ((opts.before = none ∨ opts.npmVersion = none
        ∨ (∃ nv, opts.npmVersion = some nv ∧ semverGte nv NPM_BEFORE_VERSION = false)) →
      (∃ msg, npmInstall opts = Except.error msg)
      ∧ ∀ integ pack, reproducedVerdict integ (buildPacked (npmInstall opts) pack) = false) := by
  obtain ⟨before, nodeV, npmV⟩ := opts
  constructor
  · intro cmd hcmd
    cases before with
    | none => simp [npmInstall] at hcmd
    | some b =>
      cases npmV with
      | none => simp [npmInstall] at hcmd
      | some nv =>
        by_cases hg : semverGte nv NPM_BEFORE_VERSION = true
        · refine ⟨b, nv, rfl, rfl, hg, ?_⟩
          simp only [npmInstall, hg, if_true] at hcmd
          exact (Except.ok.inj hcmd).symm
        · have hg' : semverGte nv NPM_BEFORE_VERSION = false := by simpa using hg
          simp [npmInstall, hg'] at hcmd
  · intro hbad
    have herr : ∃ msg, npmInstall ⟨before, nodeV, npmV⟩ = Except.error msg := by
      rcases hbad with h | h | ⟨nv, hnv, hg⟩
      · subst h
        exact ⟨_, rfl⟩
      · subst h
        cases before <;> exact ⟨_, rfl⟩
      · subst hnv
        cases before with
        | none => exact ⟨_, rfl⟩
        | some b =>
          exact ⟨"npm version " ++ nv ++ " does not support --before (requires >= "
            ++ NPM_BEFORE_VERSION ++ ")", by simp [npmInstall, hg]⟩
    obtain ⟨msg, hmsg⟩ := herr
    refine ⟨⟨msg, hmsg⟩, ?_⟩
    intro integ pack
    rw [hmsg]
    rfl

/-- C1 witness: the failure branch applied at npm 4.6.1 (below 5.0.0) with
a timestamp present, discharging the hypotheses there. -/
theorem npmInstall_requires_timebound_witness :
    (∃ msg, npmInstall ⟨some "2015-06-27T00:00:00.000Z", none, some "4.6.1"⟩ =
      Except.error msg)
    ∧ reproducedVerdict "sha512-A"
        (buildPacked (npmInstall ⟨some "2015-06-27T00:00:00.000Z", none, some "4.6.1"⟩)
          (some "sha512-A")) = false := by
  have h := (npmInstall_requires_timebound
    ⟨some "2015-06-27T00:00:00.000Z", none, some "4.6.1"⟩).2
    (Or.inr (Or.inr ⟨"4.6.1", rfl, by decide⟩))
  exact ⟨h.1, h.2 "sha512-A" (some "sha512-A")⟩

/-! ### Retry-on-unpublished-dependency (C8) -/

theorem lookup_filter_other (l : List (String × String)) (d n : String) (h : n ≠ d) :
    (l.filter (fun p => p.1 != d)).lookup n = l.lookup n := by
  induction l with
  | nil => rfl
  | cons p ps ih =>
    by_cases hd : (p.1 != d) = true
    · by_cases hn : (n == p.1) = true
      · simp [List.filter_cons, hd, List.lookup, hn]
      · have hn' : (n == p.1) = false := by simpa using hn
        simp [List.filter_cons, hd, List.lookup, hn', ih]
    · have hpd : p.1 = d := by simpa using hd
      have hd' : (p.1 != d) = false := by simpa using hd
      have hn : (n == p.1) = false := beq_eq_false_iff_ne.mpr (by rw [hpd]; exact h)
      simp [List.filter_cons, hd', List.lookup, hn, ih]

theorem lookup_filter_self (l : List (String × String)) (d : String) :
    (l.filter (fun p => p.1 != d)).lookup d = none := by
  induction l with
  | nil => rfl
  | cons p ps ih =>
    by_cases hd : (p.1 != d) = true
    · have hne : p.1 ≠ d := by simpa using hd
      have hdb : (d == p.1) = false := beq_eq_false_iff_ne.mpr (Ne.symm hne)
      simp [List.filter_cons, hd, List.lookup, hdb, ih]
    · have hd' : (p.1 != d) = false := by simpa using hd
      simp [List.filter_cons, hd', ih]

theorem removeDep_removesExactly (m : Manifest) (d : String) :
    removesExactly m (removeDep m d) d := by
  refine ⟨?_, lookup_filter_self _ _, lookup_filter_self _ _,
    lookup_filter_self _ _, lookup_filter_self _ _⟩
  intro n hn
  exact ⟨lookup_filter_other _ _ _ hn, lookup_filter_other _ _ _ hn,
    lookup_filter_other _ _ _ hn, lookup_filter_other _ _ _ hn⟩

theorem installGo_head (env : Manifest → InstallOutcome) (fuel : Nat) (m : Manifest) :
    (installGo env fuel m).2.head? = some m := by
  cases fuel <;> cases he : env m <;> simp [installGo, he]

theorem installGo_spec (env : Manifest → InstallOutcome) :
    ∀ (fuel : Nat) (m : Manifest),
      (installGo env fuel m).2.length ≤ fuel + 1
      ∧ (installGo env fuel m).2 ≠ []
      ∧ (installGo env fuel m).2.Chain'
          (fun x y => ∃ p msg, env x = .errNoMatching p msg
            ∧ y = removeDep x (failedDepOf p))
      ∧ ∃ lastm, (installGo env fuel m).2.getLast? = some lastm
          ∧ env lastm = (installGo env fuel m).1 := by
  intro fuel
  induction fuel with
  | zero =>
    intro m
    refine ⟨by simp [installGo], by simp [installGo], by simp [installGo],
      ⟨m, by simp [installGo], rfl⟩⟩
  | succ fuel ih =>
    intro m
    cases he : env m with
    | ok =>
      refine ⟨by simp [installGo, he], by simp [installGo, he],
        by simp [installGo, he], ⟨m, by simp [installGo, he], by simp [installGo, he]⟩⟩
    | errOther msg =>
      refine ⟨by simp [installGo, he], by simp [installGo, he],
        by simp [installGo, he], ⟨m, by simp [installGo, he], by simp [installGo, he]⟩⟩
    | errNoMatching p msg =>
      obtain ⟨ihlen, ihne, ihchain, lastm, ihlast, ihenv⟩ :=
        ih (removeDep m (failedDepOf p))
      have hgo : installGo env (fuel + 1) m =
          ((installGo env fuel (removeDep m (failedDepOf p))).1,
            m :: (installGo env fuel (removeDep m (failedDepOf p))).2) := by
        simp [installGo, he]
      rw [hgo]
      refine ⟨by simpa using Nat.succ_le_succ ihlen, by simp, ?_, ?_⟩
      · rw [List.chain'_cons']
        refine ⟨?_, ihchain⟩
        intro y hy
        rw [installGo_head env fuel (removeDep m (failedDepOf p))] at hy
        simp only [Option.mem_def, Option.some.injEq] at hy
        exact ⟨p, msg, he, by rw [← hy]⟩
      · obtain ⟨x, xs, hx⟩ : ∃ x xs,
            (installGo env fuel (removeDep m (failedDepOf p))).2 = x :: xs := by
          cases hxx : (installGo env fuel (removeDep m (failedDepOf p))).2 with
          | nil => exact absurd hxx ihne
          | cons x xs => exact ⟨x, xs, rfl⟩
        refine ⟨lastm, ?_, ihenv⟩
        rw [hx, List.getLast?_cons_cons]
        rw [hx] at ihlast
        exact ihlast

/-- C8: the install loop makes at most 6 install attempts (one initial try
plus the bounded 5 retries); each retry's manifest is obtained from the
previous one by removing exactly the dependency named in the
no-matching-version error (all other dependency declarations preserved,
that one deleted from every dependency type); and the final outcome —
success or the surfaced error — is exactly the outcome of the last install
attempt, so an exhausted retry budget surfaces the installation error
rather than swallowing it. -/
theorem installWithRetry_spec (env : Manifest → InstallOutcome) (m : Manifest) :
    (installTrace env m).length ≤ 6
    ∧ installTrace env m ≠ []
    ∧ (installTrace env m).Chain'
        (fun x y => ∃ p msg, env x = .errNoMatching p msg
          ∧ y = removeDep x (failedDepOf p) ∧ removesExactly x y (failedDepOf p))
    ∧ ∃ lastm, (installTrace env m).getLast? = some lastm
        ∧ env lastm = installWithRetry env m := by
  obtain ⟨hlen, hne, hchain, hlast⟩ := installGo_spec env 5 m
  refine ⟨hlen, hne, ?_, hlast⟩
  refine List.Chain'.imp ?_ hchain
  rintro x y ⟨p, msg, h1, h2⟩
  exact ⟨p, msg, h1, h2, h2 ▸ removeDep_removesExactly x (failedDepOf p)⟩

/-- C8 witness: the loop applied to an always-failing install with a
non-ETARGET error — the error is surfaced and the attempt bound holds. -/
theorem installWithRetry_spec_witness :
    installWithRetry (fun _ => InstallOutcome.errOther "EACCES") ⟨[], [], [], []⟩ =
      InstallOutcome.errOther "EACCES"
    ∧ (installTrace (fun _ => InstallOutcome.errOther "EACCES")
        ⟨[], [], [], []⟩).length ≤ 6 := by
  obtain ⟨h1, _, _, lastm, _, h5⟩ :=
    installWithRetry_spec (fun _ => InstallOutcome.errOther "EACCES") ⟨[], [], [], []⟩
  exact ⟨by rw [← h5], h1⟩

/-! ### Toolchain matching (C9) -/

/-- C9 (amended): `ensureNodeVersion` is exactly the spec's provisioning
ladder — exact requested version, then latest in the same major line, then
the next major line, first success winning, `none` when the version
manager is unavailable or every attempt fails — and provisioning failure
is never fatal: the run proceeds and records as its strategy the npm
version of the currently active toolchain. No explicit substitution marker
is recorded in the strategy string. -/
theorem ensureNodeVersion_ladder (env : ToolchainEnv) (v : String) :
    ensureNodeVersion env v = specToolchainLadder env v
    ∧ (ensureNodeVersion env v = none →
        toolchainStrategy env (some v) = "npm:" ++ env.npmOf none) := by
  constructor
  · unfold ensureNodeVersion specToolchainLadder nodeAttempts
    cases hn : env.nvmAvailable
    · simp
    · simp only [Bool.true_eq_false, if_false, if_true]
      cases ht : env.tryInstall (rewriteLead "v" "" v) with
      | some i =>
        cases hcm : coerceMajor (rewriteLead "v" "" v) <;> simp [ht, hcm]
      | none =>
        cases hcm : coerceMajor (rewriteLead "v" "" v) with
        | none => simp [ht, hcm]
        | some mj =>
          cases ht2 : env.tryInstall (toString mj) with
          | some i => simp [ht, hcm, ht2]
          | none =>
            cases ht3 : env.tryInstall (toString (mj + 1)) <;> simp [ht, hcm, ht2, ht3]
  · intro hnone
    have hts : toolchainStrategy env (some v) =
        "npm:" ++ env.npmOf (ensureNodeVersion env v) := rfl
    rw [hts, hnone]

/-- C9 witness: the fallback conclusion applied at an environment without
the version manager, discharging the provisioning-failed hypothesis. -/
theorem ensureNodeVersion_ladder_witness :
    toolchainStrategy ⟨false, fun _ => none, fun _ => "10.5.0"⟩ (some "20.0.0") =
      "npm:" ++ (⟨false, fun _ => none, fun _ => "10.5.0"⟩ : ToolchainEnv).npmOf none :=
  (ensureNodeVersion_ladder ⟨false, fun _ => none, fun _ => "10.5.0"⟩ "20.0.0").2 rfl

/-- C9 counterexample: the recorded strategy string does not record the
toolchain substitution — an environment where provisioning is impossible
(nvm absent, requested node 20.0.0, current npm 10.5.0) and an environment
where the exact requested version is provisioned produce identical
strategy strings, so a consumer cannot tell from the strategy that the
run fell back to the active toolchain. -/
theorem ensureNodeVersion_strategy_counterexample :
    ensureNodeVersion ⟨false, fun _ => none, fun _ => "10.5.0"⟩ "20.0.0" = none
    ∧ ensureNodeVersion ⟨true, fun s => some s, fun _ => "10.5.0"⟩ "20.0.0" =
        some "20.0.0"
    ∧ toolchainStrategy ⟨false, fun _ => none, fun _ => "10.5.0"⟩ (some "20.0.0") =
        toolchainStrategy ⟨true, fun s => some s, fun _ => "10.5.0"⟩ (some "20.0.0") :=
  ⟨rfl, rfl, rfl⟩

/-! ### Reproduce-level persistent cache (C10) -/

/-- C10 (amended): a call without `force` that finds any cached value
(including `false`) returns it without attempting; a not-applicable
outcome returns `false` recording nothing at all; an exception records
`false` only in the in-memory cache object, returns `false`, and leaves
the persistent cache file unchanged — so negative outcomes are not
persisted, and a later call for the same spec behaves exactly as if the
failed call had never happened; only a successful attempt is written to
the cache file. -/
theorem reproduce_cache_amended (cacheFile : List (String × CacheValue)) (spec : String)
    (force : Bool) (attempt : AttemptOutcome) :
    (∀ v, cacheFile.lookup spec = some v →
      ∀ a, reproduce cacheFile spec false a = ⟨v, cacheFile, cacheFile⟩)
    ∧ ((force = true ∨ cacheFile.lookup spec = none) →
      reproduce cacheFile spec force .notApplicable = ⟨.falseValue, cacheFile, cacheFile⟩
      ∧ (∀ msg, reproduce cacheFile spec force (.exception msg) =
          ⟨.falseValue, cacheFile, mapSet cacheFile spec .falseValue⟩)
      ∧ (∀ r, reproduce cacheFile spec force (.success r) =
          ⟨.result r, mapSet cacheFile spec (.result r), mapSet cacheFile spec (.result r)⟩
        ∧ (mapSet cacheFile spec (CacheValue.result r)).lookup spec = some (.result r)))
    ∧ (cacheFile.lookup spec = none → ∀ msg,
        reproduce (reproduce cacheFile spec false (.exception msg)).cacheFile spec
          false attempt = reproduce cacheFile spec false attempt) := by
  refine ⟨?_, ?_, ?_⟩
  · intro v hv a
    simp [reproduce, hv]
  · intro h
    have hnone : (if force then none else cacheFile.lookup spec) = none := by
      rcases h with h | h
      · rw [h]
        simp
      · cases force <;> simp [h]
    refine ⟨?_, ?_, ?_⟩
    · unfold reproduce
      rw [hnone]
    · intro msg
      unfold reproduce
      rw [hnone]
    · intro r
      constructor
      · unfold reproduce
        rw [hnone]
      · exact lookup_mapSet_self cacheFile spec (CacheValue.result r)
  · intro h msg
    have h1 : (reproduce cacheFile spec false (.exception msg)).cacheFile = cacheFile := by
      unfold reproduce
      rw [show (if false then none else cacheFile.lookup spec) = none from h]
    rw [h1]

/-- C10 witness: the cache equations applied at a concrete empty cache,
discharging the cache-miss hypotheses there. -/
theorem reproduce_cache_amended_witness :
    reproduce [] "left-pad@1.0.0" false (.exception "ECONNRESET") =
      ⟨.falseValue, [], mapSet [] "left-pad@1.0.0" .falseValue⟩
    ∧ reproduce (reproduce [] "left-pad@1.0.0" false (.exception "ECONNRESET")).cacheFile
        "left-pad@1.0.0" false (.success "R") =
      reproduce [] "left-pad@1.0.0" false (.success "R") := by
  constructor
  · exact ((reproduce_cache_amended [] "left-pad@1.0.0" false .notApplicable).2.1
      (Or.inr rfl)).2.1 "ECONNRESET"
  · exact (reproduce_cache_amended [] "left-pad@1.0.0" false (.success "R")).2.2
      rfl "ECONNRESET"

/-- C10 counterexample: failures are not negatively cached in the
persistent cache — after an attempt that throws, the cache file still
lacks the spec (the `false` lives only in the in-memory object), and a
subsequent call re-attempts the reproduction instead of returning the
cached `false`: with a now-succeeding attempt it returns the new result. -/
theorem reproduce_negative_cache_counterexample :
    (reproduce [] "left-pad@1.0.0" false (.exception "ECONNRESET")).returned =
      CacheValue.falseValue
    ∧ (reproduce [] "left-pad@1.0.0" false (.exception "ECONNRESET")).cacheFile = []
    ∧ (reproduce [] "left-pad@1.0.0" false (.exception "ECONNRESET")).cacheFile.lookup
        "left-pad@1.0.0" = none
    ∧ (reproduce
        (reproduce [] "left-pad@1.0.0" false (.exception "ECONNRESET")).cacheFile
        "left-pad@1.0.0" false (.success "R")).returned = CacheValue.result "R"
    ∧ (reproduce [] "left-pad@1.0.0" false .notApplicable).cacheFile = []
    ∧ (reproduce [] "left-pad@1.0.0" false .notApplicable).memCache = [] :=
  ⟨rfl, rfl, rfl, rfl, rfl, rfl⟩

end Reprogistry
